import Mathlib

/-!
# Buxfer: shared-expense groups (`lists.c`)

A shallow embedding of the linked-list code of `lists.c` and the properties of
its specification.

Modelling conventions.

* A `NULL`-terminated singly linked list is a Lean `List` of its nodes, the
  first node first.  A pointer into a list is the position of the node it
  points to (together with the contents of that node where the code reads
  them).
* C strings are `String`s and `strcmp(a, b) == 0` is equality.
* A name is stored by `strncpy(dst, src, strlen(src))` into a buffer of
  `strlen(src) + 1` bytes that `malloc` returns: the code writes no terminator,
  so the name stored is the name given followed by the bytes that stand behind
  it in memory up to the first zero byte. These bytes are the argument `stray`
  of the functions that store a name; `stray` is empty when the byte behind
  the name is zero (fresh memory), and is not empty in a recycled chunk.
* A local variable that is read without having been assigned holds whatever
  its stack slot held; the outcome of the comparison that reads it is an
  argument of the function (`stale_firstUser` of `add_xct`).
* `double` amounts and balances are exact integers (an amount in the smallest
  currency unit); rounding of floating-point addition is not modelled. The
  tests of the code compare stored balances, and so do the tests of the model.
* A function that prints returns the list of the entries it prints, next to
  its return code where it has one.
* `malloc` is assumed to succeed (the code exits the process otherwise).
-/

namespace Buxfer

/-- A node of a user list: the fields `name` and `balance` of `User`
(the field `next` is the tail of the list). -/
structure User where
  name : String
  balance : Int
deriving DecidableEq

/-- A node of a transaction list: the fields `name` and `amount` of `Xct`. -/
structure Xct where
  name : String
  amount : Int
deriving DecidableEq

/-- A node of the group list: the fields `name`, `users` and `xcts` of
`Group`. -/
structure Group where
  name : String
  users : List User
  xcts : List Xct
deriving DecidableEq

/-! ## Group catalog -/

/-- `find_group`: the first group of the list whose name is `group_name`. -/
def find_group : List Group → String → Option Group
  | [], _ => none
  | current :: next, group_name =>
    if current.name = group_name then some current
    else find_group next group_name

/-- `add_group`: return code and the group list afterwards. The name stored
in the new node is `group_name` followed by `stray`. -/
def add_group (group_list : List Group) (group_name : String) (stray : String) :
    Int × List Group :=
  match find_group group_list group_name with
  | some _ => (-1, group_list)
  | none =>
    let newGroup : Group := { name := group_name ++ stray, users := [], xcts := [] }
    match group_list with
    | [] => (0, [newGroup])
    | first :: rest => (0, (first :: rest) ++ [newGroup])

/-- `list_groups`: the names printed, in the order of the list. -/
def list_groups (group_list : List Group) : List String :=
  group_list.map Group.name

/-! ## User registry -/

/-- The `while` loop of `find_prev_user`: `prevUser` is the node at position
`prev`, and the list is the chain from `currentUser`, the node after it. -/
def find_prev_loop (user_name : String) (prevUser : User) :
    List User → Nat → Option (Nat × User)
  | [], _ => none
  | currentUser :: next, prev =>
    if currentUser.name = user_name then some (prev, prevUser)
    else find_prev_loop user_name currentUser next (prev + 1)

/-- `find_prev_user`: the position and the contents of the node returned,
`none` for `NULL`. -/
def find_prev_user (group : Group) (user_name : String) : Option (Nat × User) :=
  match group.users with
  | [] => none
  | currentUser :: next =>
    if currentUser.name = user_name then some (0, currentUser)
    else find_prev_loop user_name currentUser next 0

/-- `add_user`: return code and the group afterwards. The name stored in the
new node is `user_name` followed by `stray`. -/
def add_user (group : Group) (user_name : String) (stray : String) : Int × Group :=
  match find_prev_user group user_name with
  | some _ => (-1, group)
  | none =>
    let newUser : User := { name := user_name ++ stray, balance := 0 }
    match group.users with
    | [] => (0, { group with users := [newUser] })
    | first :: rest => (0, { group with users := newUser :: first :: rest })

/-- `remove_xct`'s loop. `whole` is the list from `group->xcts` on entry, the
second argument is the chain from `xctToRemove`, which is the node at position
`i` of `whole`; `prevXct` is the node at position `i - 1`, or `xctToRemove`
itself when `i = 0`. The result is the list from `group->xcts` when the loop
exits.

At a node that matches and has a successor, `group->xcts` is set to the
successor and the node's `next` to `NULL`, so the loop exits after it. At a
node that matches and is last, `prevXct->next` is set to `NULL`. -/
def remove_xct_loop (user_name : String) (whole : List Xct) : List Xct → Nat → List Xct
  | [], _ => whole
  | xctToRemove :: next, i =>
    if xctToRemove.name = user_name then
      match next with
      | _ :: _ => next
      | [] => if i = 0 then whole else whole.take i
    else remove_xct_loop user_name whole next (i + 1)

/-- `remove_xct`: the group afterwards. -/
def remove_xct (group : Group) (user_name : String) : Group :=
  { group with xcts := remove_xct_loop user_name group.xcts group.xcts 0 }

/-- `remove_user`: return code and the group afterwards. -/
def remove_user (group : Group) (user_name : String) : Int × Group :=
  match find_prev_user group user_name with
  | none => (-1, group)
  | some (p, prevUser) =>
    let users :=
      if prevUser.name = user_name then
        -- `group->users = prevUser->next`
        group.users.drop (p + 1)
      else
        -- `prevUser->next = userToRemove->next`
        group.users.take (p + 1) ++ group.users.drop (p + 2)
    (0, remove_xct { group with users := users } user_name)

/-- `list_users`: the (name, balance) pairs printed by the loop's own `printf`,
in list order. -/
def list_users (group : Group) : List (String × Int) :=
  group.users.map (fun currentUser => (currentUser.name, currentUser.balance))

/-- `user_balance`: return code and the balance printed. -/
def user_balance (group : Group) (user_name : String) : Int × Option Int :=
  match find_prev_user group user_name with
  | none => (-1, none)
  | some (p, prevUser) =>
    if prevUser.name = user_name then (0, some prevUser.balance)
    else (0, (group.users[p + 1]?).map User.balance)

/-- `under_paid`: return code and the (name, balance) pairs printed.
`inDebtUser` stays the first user during the whole loop. -/
def under_paid (group : Group) : Int × List (String × Int) :=
  match group.users with
  | [] => (-1, [])
  | inDebtUser :: next =>
    (0, ((inDebtUser :: next).filter
          (fun currentUser => currentUser.balance ≤ inDebtUser.balance)).map
          (fun currentUser => (currentUser.name, currentUser.balance)))

/-! ## Transactions -/

/-- The balance update and the placement switch of `add_xct`, on the chain from
`userToAdjust`: the balance of its first node grows by `amount`, and the node
changes place with its successor when its new balance is greater. -/
def reposition (amount : Int) : List User → List User
  | [] => []
  | userToAdjust :: after =>
    let adjusted : User := { userToAdjust with balance := userToAdjust.balance + amount }
    match after with
    | [] => [adjusted]
    | userAfter :: newUserAfter =>
      if adjusted.balance > userAfter.balance then
        userAfter :: adjusted :: newUserAfter
      else adjusted :: userAfter :: newUserAfter

/-- The test of `add_xct` for the placement switch, on the chain from
`userToAdjust`: there is a successor and the new balance is greater than the
balance of the successor. -/
def switches (amount : Int) : List User → Bool
  | userToAdjust :: userAfter :: _ =>
    decide (userToAdjust.balance + amount > userAfter.balance)
  | _ => false

/-- `add_xct`: return code and the group afterwards.

The name stored in the new transaction is `user_name` followed by `stray`.

`firstUser` is assigned (to `userToAdjust`) only when the user is first in the
list, and is read after every placement switch: `stale_firstUser` is the
outcome of `userToAdjust == firstUser` when `firstUser` was not assigned. When
the comparison holds, `group->users` is set to the former successor of
`userToAdjust`, so the list then starts there; otherwise the nodes before
`userToAdjust` keep their place and the link into `userToAdjust` is
redirected by the switch. -/
def add_xct (group : Group) (user_name : String) (amount : Int)
    (stale_firstUser : Bool) (stray : String) : Int × Group :=
  match find_prev_user group user_name with
  | none => (-1, group)
  | some (p, prevUser) =>
    -- position of `userToAdjust`
    let i := if prevUser.name = user_name then p else p + 1
    -- `userToAdjust == firstUser`
    let isFirstUser := if prevUser.name = user_name then true else stale_firstUser
    let newXct : Xct := { name := user_name ++ stray, amount := amount }
    let xcts :=
      match group.xcts with
      | [] => [newXct]
      | first :: rest => newXct :: first :: rest
    let users :=
      if switches amount (group.users.drop i) && isFirstUser then
        -- `group->users = prevUser`, the former successor
        reposition amount (group.users.drop i)
      else group.users.take i ++ reposition amount (group.users.drop i)
    (0, { group with users := users, xcts := xcts })

/-- The `while (nu_xct != 0)` loop of `recent_xct` for a count that is not
negative: the transactions printed. -/
def recent_loop : List Xct → Nat → List Xct
  | _, 0 => []
  | [], n + 1 => recent_loop [] n
  | currentXct :: next, n + 1 => currentXct :: recent_loop next n

/-- `recent_xct`: the (name, amount) pairs printed. With a negative count and a
log that is not empty the loop counts down away from zero; that run is `none`. -/
def recent_xct (group : Group) (nu_xct : Int) : Option (List (String × Int)) :=
  match group.xcts with
  | [] => some []
  | currentXct :: next =>
    if nu_xct < 0 then none
    else some ((recent_loop (currentXct :: next) nu_xct.toNat).map
                (fun x => (x.name, x.amount)))

/-! ## Sequences of calls -/

/-- A mutating call on one group, with the stray bytes and the stale
comparison of the call. -/
inductive Call where
  | addUser (user_name : String) (stray : String)
  | addXct (user_name : String) (amount : Int) (stale_firstUser : Bool) (stray : String)
  | removeUser (user_name : String)
deriving DecidableEq

/-- The group after one call (a call that fails leaves it as the function
leaves it). -/
def Call.run (group : Group) : Call → Group
  | .addUser user_name stray => (add_user group user_name stray).2
  | .addXct user_name amount stale_firstUser stray =>
    (add_xct group user_name amount stale_firstUser stray).2
  | .removeUser user_name => (remove_user group user_name).2

/-- The group after a sequence of calls, first call first. -/
def run_calls (group : Group) (calls : List Call) : Group :=
  calls.foldl Call.run group

/-- A group as `add_group` creates it. -/
def empty_group (group_name : String) : Group :=
  { name := group_name, users := [], xcts := [] }

/-- The states of a group that sequences of `add_user`, `add_xct` and
`remove_user` calls lead to from the empty group, whatever the stray bytes and
stale comparisons of the calls. -/
def Reachable (group : Group) : Prop :=
  ∃ group_name calls, group = run_calls (empty_group group_name) calls

/-- The user list is in non-decreasing balance order. -/
def SortedByBalance (users : List User) : Prop :=
  users.Pairwise (fun a b => a.balance ≤ b.balance)

instance (users : List User) : Decidable (SortedByBalance users) := by
  unfold SortedByBalance; infer_instance

/-- The sum of the amounts that a sequence of `add_xct` calls posts to
`user_name`. -/
def posted_sum (user_name : String) (posts : List (String × Int)) : Int :=
  ((posts.filter (fun t => t.1 = user_name)).map Prod.snd).sum

/-- The sum of the amounts of the transactions of a log that carry
`user_name`. -/
def log_sum (user_name : String) (xcts : List Xct) : Int :=
  ((xcts.filter (fun x => x.name = user_name)).map Xct.amount).sum

/-- `m` is the minimum balance of a user list: the balance of one of its
users, and not above the balance of any of them. -/
def IsMinBalance (m : Int) (users : List User) : Prop :=
  (∃ u ∈ users, u.balance = m) ∧ ∀ u ∈ users, m ≤ u.balance

/-! ## Lemmas on `find_prev_user` -/

theorem find_prev_loop_eq_none (n : String) :
    ∀ (l : List User) (prev : User) (k : Nat),
      find_prev_loop n prev l k = none ↔ ∀ v ∈ l, v.name ≠ n := by
  intro l
  induction l with
  | nil => intro prev k; simp [find_prev_loop]
  | cons c rest ih =>
    intro prev k
    by_cases h : c.name = n
    · simp [find_prev_loop, h]
    · simp [find_prev_loop, h, ih]

theorem find_prev_user_eq_none (g : Group) (n : String) :
    find_prev_user g n = none ↔ ∀ v ∈ g.users, v.name ≠ n := by
  unfold find_prev_user
  cases hU : g.users with
  | nil => simp
  | cons c rest =>
    by_cases h : c.name = n
    · simp [h]
    · simp [h, find_prev_loop_eq_none]

theorem find_prev_loop_eq_some (n : String) :
    ∀ (l : List User) (prev : User) (k p : Nat) (pu : User),
      find_prev_loop n prev l k = some (p, pu) →
      ∃ mid u post front, l = mid ++ u :: post ∧ (∀ v ∈ mid, v.name ≠ n) ∧ u.name = n ∧
        prev :: mid = front ++ [pu] ∧ p = k + front.length := by
  intro l
  induction l with
  | nil => intro prev k p pu h; simp [find_prev_loop] at h
  | cons c rest ih =>
    intro prev k p pu h
    by_cases hc : c.name = n
    · simp [find_prev_loop, hc] at h
      refine ⟨[], c, rest, [], ?_⟩
      simp [hc, h.1.symm, h.2.symm]
    · simp [find_prev_loop, hc] at h
      obtain ⟨mid, u, post, front, h1, h2, h3, h4, h5⟩ := ih c (k + 1) p pu h
      refine ⟨c :: mid, u, post, prev :: front, ?_⟩
      refine ⟨by simp [h1], ?_, h3, by simp [h4], by simp [h5]; omega⟩
      intro v hv
      rcases List.mem_cons.1 hv with rfl | hv
      · exact hc
      · exact h2 v hv

/-- What `find_prev_user` returns when it finds the name: the list splits at
the first user `u` of that name, and the node returned is `u` itself when `u`
is first and the node before `u` otherwise. -/
theorem find_prev_user_eq_some (g : Group) (n : String) (p : Nat) (pu : User)
    (h : find_prev_user g n = some (p, pu)) :
    ∃ pre u post, g.users = pre ++ u :: post ∧ (∀ v ∈ pre, v.name ≠ n) ∧ u.name = n ∧
      ((pre = [] ∧ p = 0 ∧ pu = u) ∨ (∃ front, pre = front ++ [pu] ∧ p = front.length)) := by
  unfold find_prev_user at h
  cases hU : g.users with
  | nil => simp [hU] at h
  | cons c rest =>
    rw [hU] at h
    by_cases hc : c.name = n
    · simp [hc] at h
      exact ⟨[], c, rest, by simp, by simp, hc, Or.inl ⟨rfl, h.1.symm, h.2.symm⟩⟩
    · simp [hc] at h
      obtain ⟨mid, u, post, front, h1, h2, h3, h4, h5⟩ := find_prev_loop_eq_some n rest c 0 p pu h
      refine ⟨c :: mid, u, post, by simp [h1], ?_, h3, Or.inr ⟨front, h4, by omega⟩⟩
      intro v hv
      rcases List.mem_cons.1 hv with rfl | hv
      · exact hc
      · exact h2 v hv

/-- The split of a user list at the first user of a name is unique. -/
theorem first_split_unique (n : String) :
    ∀ (a a' : List User) (x x' : User) (b b' : List User),
      a ++ x :: b = a' ++ x' :: b' → (∀ v ∈ a, v.name ≠ n) → x.name = n →
      (∀ v ∈ a', v.name ≠ n) → x'.name = n → a = a' ∧ x = x' ∧ b = b' := by
  intro a
  induction a with
  | nil =>
    intro a' x x' b b' h _ hx ha' _
    cases a' with
    | nil => simp at h; exact ⟨rfl, h.1, h.2⟩
    | cons c rest =>
      simp at h
      exact absurd (h.1 ▸ hx) (ha' c (by simp))
  | cons c rest ih =>
    intro a' x x' b b' h ha hx ha' hx'
    cases a' with
    | nil =>
      simp at h
      exact absurd (h.1 ▸ hx') (ha c (by simp))
    | cons c' rest' =>
      simp at h
      obtain ⟨h1, h2, h3⟩ := ih rest' x x' b b' h.2
        (fun v hv => ha v (by simp [hv])) hx (fun v hv => ha' v (by simp [hv])) hx'
      exact ⟨by rw [h.1, h1], h2, h3⟩

/-- `find_prev_user` on a list split at the first user of the name. -/
theorem find_prev_user_of_split (g : Group) (n : String) (pre : List User) (u : User)
    (post : List User) (h1 : g.users = pre ++ u :: post) (h2 : ∀ v ∈ pre, v.name ≠ n)
    (h3 : u.name = n) :
    ∃ p pu, find_prev_user g n = some (p, pu) ∧
      ((pre = [] ∧ p = 0 ∧ pu = u) ∨ (∃ front, pre = front ++ [pu] ∧ p = front.length)) := by
  cases hf : find_prev_user g n with
  | none =>
    exact absurd h3 ((find_prev_user_eq_none g n).1 hf u (by simp [h1]))
  | some r =>
    obtain ⟨p, pu⟩ := r
    obtain ⟨pre', u', post', e1, e2, e3, e4⟩ := find_prev_user_eq_some g n p pu hf
    rw [h1] at e1
    obtain ⟨hp, hu, -⟩ := first_split_unique n pre pre' u u' post post' e1 h2 h3 e2 e3
    subst hp; subst hu
    exact ⟨p, pu, rfl, e4⟩

/-! ## Lemmas on `add_user` and `add_xct` -/

theorem add_user_of_none (g : Group) (n stray : String) (h : find_prev_user g n = none) :
    add_user g n stray = (0, { g with users := ⟨n ++ stray, 0⟩ :: g.users }) := by
  unfold add_user
  rw [h]
  cases hU : g.users <;> simp

theorem add_user_of_some (g : Group) (n stray : String) (r : Nat × User)
    (h : find_prev_user g n = some r) : add_user g n stray = (-1, g) := by
  simp [add_user, h]

theorem add_xct_of_none (g : Group) (n : String) (a : Int) (stale : Bool) (stray : String)
    (h : find_prev_user g n = none) : add_xct g n a stale stray = (-1, g) := by
  simp [add_xct, h]

theorem remove_user_of_none (g : Group) (n : String) (h : find_prev_user g n = none) :
    remove_user g n = (-1, g) := by
  simp [remove_user, h]

/-- The effect of a successful `remove_user`, with the user list split at the
first user of the name. -/
theorem remove_user_of_some (g : Group) (n : String) (p : Nat) (pu : User)
    (h : find_prev_user g n = some (p, pu)) :
    ∃ pre u post, g.users = pre ++ u :: post ∧ (∀ v ∈ pre, v.name ≠ n) ∧ u.name = n ∧
      remove_user g n = (0, remove_xct { g with users := pre ++ post } n) := by
  obtain ⟨pre, u, post, h1, h2, h3, h4⟩ := find_prev_user_eq_some g n p pu h
  refine ⟨pre, u, post, h1, h2, h3, ?_⟩
  rcases h4 with ⟨hp, h0, hu⟩ | ⟨front, hf, hl⟩
  · subst hp; subst hu; subst h0
    simp [remove_user, h, h3, h1]
  · have hpu : pu.name ≠ n := h2 pu (by simp [hf])
    subst hf; subst hl
    have ht : (front ++ [pu] ++ u :: post).take (front.length + 1) = front ++ [pu] := by
      rw [List.take_append_eq_append_take]; simp
    have hd : (front ++ [pu] ++ u :: post).drop (front.length + 2) = post := by
      rw [List.drop_append_eq_append_drop]; simp
    simp only [remove_user, h, hpu, if_false, h1, ht, hd]

theorem remove_user_of_split (g : Group) (n : String) (pre : List User) (u : User)
    (post : List User) (h1 : g.users = pre ++ u :: post) (h2 : ∀ v ∈ pre, v.name ≠ n)
    (h3 : u.name = n) :
    remove_user g n = (0, remove_xct { g with users := pre ++ post } n) := by
  obtain ⟨p, pu, hf, -⟩ := find_prev_user_of_split g n pre u post h1 h2 h3
  obtain ⟨pre', u', post', e1, e2, e3, e4⟩ := remove_user_of_some g n p pu hf
  rw [h1] at e1
  obtain ⟨hp, hu, hq⟩ := first_split_unique n pre pre' u u' post post' e1 h2 h3 e2 e3
  subst hp; subst hu; subst hq
  exact e4

theorem remove_xct_loop_of_none (n : String) (whole : List Xct) :
    ∀ (rest : List Xct) (k : Nat), (∀ v ∈ rest, v.name ≠ n) →
      remove_xct_loop n whole rest k = whole := by
  intro rest
  induction rest with
  | nil => intro k _; simp [remove_xct_loop]
  | cons x next ih =>
    intro k h
    have hx : x.name ≠ n := h x (by simp)
    simp only [remove_xct_loop, hx, if_false]
    exact ih (k + 1) (fun v hv => h v (by simp [hv]))

/-- The loop of `remove_xct` stops at the first transaction of the name: with
a successor, the list becomes the chain after it; without one, the link into
it is cut, which changes nothing when it is the only node. -/
theorem remove_xct_loop_of_split (n : String) (whole : List Xct) (x : Xct)
    (post : List Xct) (hx : x.name = n) :
    ∀ (mid : List Xct) (k : Nat), (∀ v ∈ mid, v.name ≠ n) →
      remove_xct_loop n whole (mid ++ x :: post) k =
        if post ≠ [] then post
        else if k + mid.length = 0 then whole else whole.take (k + mid.length) := by
  intro mid
  induction mid with
  | nil =>
    intro k _
    cases post with
    | nil => simp [remove_xct_loop, hx]
    | cons y rest => simp [remove_xct_loop, hx]
  | cons c rest ih =>
    intro k h
    have hc : c.name ≠ n := h c (by simp)
    rw [List.cons_append]
    simp only [remove_xct_loop, hc, if_false]
    rw [ih (k + 1) (fun v hv => h v (by simp [hv]))]
    simp only [List.length_cons]
    have e : k + 1 + rest.length = k + (rest.length + 1) := by omega
    rw [e]

theorem remove_xct_of_none (g : Group) (n : String) (h : ∀ x ∈ g.xcts, x.name ≠ n) :
    remove_xct g n = g := by
  unfold remove_xct
  rw [remove_xct_loop_of_none n g.xcts g.xcts 0 h]

theorem remove_xct_of_split (g : Group) (n : String) (pre : List Xct) (x : Xct)
    (post : List Xct) (h1 : g.xcts = pre ++ x :: post) (h2 : ∀ v ∈ pre, v.name ≠ n)
    (h3 : x.name = n) :
    (remove_xct g n).xcts =
      if post ≠ [] then post else if pre = [] then g.xcts else pre := by
  unfold remove_xct
  simp only
  conv => lhs; arg 3; rw [h1]
  rw [remove_xct_loop_of_split n g.xcts x post h3 pre 0 h2]
  by_cases hp : post ≠ []
  · simp [hp]
  · simp only [hp, if_false, Nat.zero_add, List.length_eq_zero]
    by_cases hpre : pre = []
    · simp [hpre]
    · simp only [hpre, if_false]
      rw [h1]
      simp

theorem remove_xct_loop_infix (n : String) (whole : List Xct) :
    ∀ (rest : List Xct) (k : Nat), List.IsSuffix rest whole →
      List.IsInfix (remove_xct_loop n whole rest k) whole := by
  intro rest
  induction rest with
  | nil => intro k _; simp [remove_xct_loop]
  | cons x next ih =>
    intro k hs
    have hnext : List.IsSuffix next whole :=
      List.IsSuffix.trans (List.suffix_cons x next) hs
    by_cases hx : x.name = n
    · cases next with
      | nil =>
        simp only [remove_xct_loop, hx, if_true]
        split
        · exact List.infix_refl _
        · exact (List.take_prefix _ _).isInfix
      | cons y rest =>
        simp only [remove_xct_loop, hx, if_true]
        exact hnext.isInfix
    · simp only [remove_xct_loop, hx, if_false]
      exact ih (k + 1) hnext

/-! ## `under_paid` -/

/-- Claim C6. `under_paid` returns failure exactly when the user list is empty.
On a user list that is not empty and is in non-decreasing balance order it
returns success and prints exactly the users whose balance is the minimum
balance of the list, each once and in list order; for balances 5, 5, 10 these
are the two users of balance 5. -/
theorem under_paid_sorted :
    (∀ g : Group, (under_paid g).1 = -1 ↔ g.users = []) ∧
    (∀ g : Group, g.users ≠ [] → SortedByBalance g.users →
      ∃ m, IsMinBalance m g.users ∧
        under_paid g = (0, (g.users.filter (fun u => u.balance = m)).map
                            (fun u => (u.name, u.balance)))) ∧
    under_paid ⟨"g", [⟨"A", 5⟩, ⟨"B", 5⟩, ⟨"C", 10⟩], []⟩ = (0, [("A", 5), ("B", 5)]) := by
  refine ⟨?_, ?_, by decide⟩
  · intro g
    unfold under_paid
    cases hU : g.users with
    | nil => simp
    | cons d next =>
      have hne : ¬ ((0 : Int) = -1) := by decide
      simp [hne]
  · intro g hne hsorted
    unfold under_paid
    cases hU : g.users with
    | nil => exact absurd hU hne
    | cons d next =>
      rw [hU] at hsorted
      have hmin : ∀ v ∈ d :: next, d.balance ≤ v.balance := by
        intro v hv
        rcases List.mem_cons.1 hv with rfl | hv
        · exact le_refl _
        · exact (List.pairwise_cons.1 hsorted).1 v hv
      refine ⟨d.balance, ⟨⟨d, by simp, rfl⟩, hmin⟩, ?_⟩
      have hfilter : (d :: next).filter (fun v => v.balance ≤ d.balance)
          = (d :: next).filter (fun v => v.balance = d.balance) := by
        apply List.filter_congr
        intro v hv
        have := hmin v hv
        simp only [decide_eq_decide]
        constructor
        · intro h; exact le_antisymm h this
        · intro h; exact le_of_eq h
      simp only [hfilter]

/-- Witness for C6: a sorted list of three users, two of them at the minimum. -/
theorem under_paid_sorted_witness :
    ∃ m, IsMinBalance m [⟨"A", 5⟩, ⟨"B", 5⟩, ⟨"C", 10⟩] ∧
      under_paid ⟨"g", [⟨"A", 5⟩, ⟨"B", 5⟩, ⟨"C", 10⟩], []⟩
        = (0, (([⟨"A", 5⟩, ⟨"B", 5⟩, ⟨"C", 10⟩] : List User).filter
                (fun u => u.balance = m)).map (fun u => (u.name, u.balance))) :=
  under_paid_sorted.2.1 ⟨"g", [⟨"A", 5⟩, ⟨"B", 5⟩, ⟨"C", 10⟩], []⟩ (by decide) (by decide)

/-! ## Contracts of the registry and log operations -/

/-- Claim C12. `remove_user` returns failure exactly when no user of the group
has the name, and then the group (user list and transaction log) is unchanged.
On success the new user list is the old list without the user of that name
(the first one of that name): the users before it and after it keep their
order and their balances, and the list starts with the second user when the
first one is removed. -/
theorem remove_user_registry :
    (∀ (g : Group) (n : String),
      ((remove_user g n).1 = -1 ↔ ¬ ∃ u ∈ g.users, u.name = n) ∧
      ((remove_user g n).1 = -1 → (remove_user g n).2 = g) ∧
      ((remove_user g n).1 ≠ -1 → (remove_user g n).1 = 0)) ∧
    (∀ (g : Group) (n : String) (pre : List User) (u : User) (post : List User),
      g.users = pre ++ u :: post → (∀ v ∈ pre, v.name ≠ n) → u.name = n →
      (remove_user g n).1 = 0 ∧ (remove_user g n).2.users = pre ++ post) ∧
    (∀ (g : Group) (n : String),
      (remove_user g n).2.users = g.users.eraseP (fun u => u.name = n)) ∧
    (remove_user ⟨"g", [⟨"A", 1⟩, ⟨"B", 2⟩, ⟨"C", 3⟩], []⟩ "A"
        = (0, ⟨"g", [⟨"B", 2⟩, ⟨"C", 3⟩], []⟩) ∧
     remove_user ⟨"g", [⟨"A", 1⟩, ⟨"B", 2⟩, ⟨"C", 3⟩], []⟩ "B"
        = (0, ⟨"g", [⟨"A", 1⟩, ⟨"C", 3⟩], []⟩)) := by
  refine ⟨?_, ?_, ?_, by decide⟩
  · intro g n
    have h01 : ¬ ((0 : Int) = -1) := by decide
    cases hf : find_prev_user g n with
    | none =>
      have hno := (find_prev_user_eq_none g n).1 hf
      rw [remove_user_of_none g n hf]
      refine ⟨⟨fun _ => ?_, fun _ => rfl⟩, fun _ => rfl, fun h => absurd rfl h⟩
      rintro ⟨u, hu, hn⟩
      exact hno u hu hn
    | some r =>
      obtain ⟨p, pu⟩ := r
      obtain ⟨pre, u, post, h1, -, h3, h4⟩ := remove_user_of_some g n p pu hf
      rw [h4]
      refine ⟨⟨fun h => absurd h h01, ?_⟩, fun h => absurd h h01, fun _ => rfl⟩
      intro hno
      exact absurd ⟨u, by simp [h1], h3⟩ hno
  · intro g n pre u post h1 h2 h3
    rw [remove_user_of_split g n pre u post h1 h2 h3]
    exact ⟨rfl, rfl⟩
  · intro g n
    cases hf : find_prev_user g n with
    | none =>
      have hno := (find_prev_user_eq_none g n).1 hf
      rw [remove_user_of_none g n hf, List.eraseP_of_forall_not]
      intro v hv
      simpa using hno v hv
    | some r =>
      obtain ⟨p, pu⟩ := r
      obtain ⟨pre, u, post, h1, h2, h3, h4⟩ := remove_user_of_some g n p pu hf
      rw [h4, h1, List.eraseP_append_right _ (by intro v hv; simpa using h2 v hv),
        List.eraseP_cons_of_pos (by simpa using h3)]
      rfl

/-- Witness for C12: the middle user of three is removed. -/
theorem remove_user_registry_witness :
    (remove_user ⟨"g", [⟨"A", 1⟩, ⟨"B", 2⟩, ⟨"C", 3⟩], [⟨"B", 2⟩]⟩ "B").1 = 0 ∧
    (remove_user ⟨"g", [⟨"A", 1⟩, ⟨"B", 2⟩, ⟨"C", 3⟩], [⟨"B", 2⟩]⟩ "B").2.users
      = [⟨"A", 1⟩] ++ [⟨"C", 3⟩] :=
  remove_user_registry.2.1 ⟨"g", [⟨"A", 1⟩, ⟨"B", 2⟩, ⟨"C", 3⟩], [⟨"B", 2⟩]⟩ "B"
    [⟨"A", 1⟩] ⟨"B", 2⟩ [⟨"C", 3⟩] (by decide) (by decide) (by decide)

/-- Claim C14. `find_prev_user` returns not-found exactly when no user has the
name. When the first user has the name it returns the first user. Otherwise,
when `u` is the first user of the name and `pu` the user just before it, it
returns `pu`: the node returned does not have the name and its successor is
`u`. -/
theorem find_prev_user_contract :
    (∀ (g : Group) (n : String),
      find_prev_user g n = none ↔ ¬ ∃ u ∈ g.users, u.name = n) ∧
    (∀ (g : Group) (n : String) (u : User) (rest : List User),
      g.users = u :: rest → u.name = n → find_prev_user g n = some (0, u)) ∧
    (∀ (g : Group) (n : String) (front : List User) (pu u : User) (post : List User),
      g.users = front ++ pu :: u :: post → (∀ v ∈ front, v.name ≠ n) → pu.name ≠ n →
      u.name = n →
      find_prev_user g n = some (front.length, pu) ∧
      g.users[front.length]? = some pu ∧ g.users[front.length + 1]? = some u) := by
  refine ⟨?_, ?_, ?_⟩
  · intro g n
    rw [find_prev_user_eq_none]
    constructor
    · rintro h ⟨u, hu, hn⟩
      exact h u hu hn
    · intro h u hu hn
      exact h ⟨u, hu, hn⟩
  · intro g n u rest h1 h3
    simp [find_prev_user, h1, h3]
  · intro g n front pu u post h1 h2 hpu h3
    have h1' : g.users = (front ++ [pu]) ++ u :: post := by simp [h1]
    have h2' : ∀ v ∈ front ++ [pu], v.name ≠ n := by
      intro v hv
      rcases List.mem_append.1 hv with hv | hv
      · exact h2 v hv
      · rw [List.mem_singleton] at hv; rw [hv]; exact hpu
    obtain ⟨p, pu', hf, hcase⟩ := find_prev_user_of_split g n _ u post h1' h2' h3
    refine ⟨?_, ?_, ?_⟩
    · rcases hcase with ⟨he, -, -⟩ | ⟨front', he, hl⟩
      · simp at he
      · obtain ⟨e1, e2⟩ := List.append_inj' he rfl
        simp only [List.cons.injEq, and_true] at e2
        rw [hf, hl, ← e1, e2]
    · rw [h1, List.getElem?_append_right (Nat.le_refl _)]
      simp
    · rw [h1, List.getElem?_append_right (by omega)]
      simp

/-- Witness for C14: the second of three users has the name. -/
theorem find_prev_user_contract_witness :
    find_prev_user ⟨"g", [⟨"A", 1⟩, ⟨"B", 2⟩, ⟨"C", 3⟩], []⟩ "B" = some (0, ⟨"A", 1⟩) ∧
    ([⟨"A", 1⟩, ⟨"B", 2⟩, ⟨"C", 3⟩] : List User)[0]? = some ⟨"A", 1⟩ ∧
    ([⟨"A", 1⟩, ⟨"B", 2⟩, ⟨"C", 3⟩] : List User)[0 + 1]? = some ⟨"B", 2⟩ :=
  find_prev_user_contract.2.2 ⟨"g", [⟨"A", 1⟩, ⟨"B", 2⟩, ⟨"C", 3⟩], []⟩ "B" []
    ⟨"A", 1⟩ ⟨"B", 2⟩ [⟨"C", 3⟩] (by decide) (by decide) (by decide) (by decide)

/-- Claim C15. When no transaction of the log carries the name, `remove_xct`
leaves the group (the log, the user list and the name) exactly as it is. -/
theorem remove_xct_no_match (g : Group) (n : String)
    (h : ∀ x ∈ g.xcts, x.name ≠ n) : remove_xct g n = g := by
  unfold remove_xct
  rw [remove_xct_loop_of_none n g.xcts g.xcts 0 h]

/-- Witness for C15: a log with transactions of A and B, and the name C. -/
theorem remove_xct_no_match_witness :
    remove_xct ⟨"g", [⟨"A", 1⟩, ⟨"B", 2⟩], [⟨"B", 2⟩, ⟨"A", 1⟩]⟩ "C"
      = ⟨"g", [⟨"A", 1⟩, ⟨"B", 2⟩], [⟨"B", 2⟩, ⟨"A", 1⟩]⟩ :=
  remove_xct_no_match ⟨"g", [⟨"A", 1⟩, ⟨"B", 2⟩], [⟨"B", 2⟩, ⟨"A", 1⟩]⟩ "C" (by decide)

/-- Claim C20. The exact effect of `remove_xct` on a log `L`. Without a
transaction of the name the log is unchanged. Otherwise let the first
transaction of the name stand at index `i` (after the transactions `pre`,
before the transactions `post`): when it is not the last element the result is
the part of `L` from index `i + 1`; when it is the last element and `i > 0` the
result is `L` without its last element; when `L` is that single transaction the
log is unchanged. In every case the result is a contiguous segment of `L`, not
longer than `L`, and the user list is unchanged. -/
theorem remove_xct_exact :
    (∀ (g : Group) (n : String), (∀ x ∈ g.xcts, x.name ≠ n) → (remove_xct g n).xcts = g.xcts) ∧
    (∀ (g : Group) (n : String) (pre : List Xct) (x : Xct) (post : List Xct),
      g.xcts = pre ++ x :: post → (∀ v ∈ pre, v.name ≠ n) → x.name = n →
      (remove_xct g n).xcts =
        if post ≠ [] then g.xcts.drop (pre.length + 1)
        else if pre ≠ [] then g.xcts.dropLast
        else g.xcts) ∧
    (∀ (g : Group) (n : String),
      List.IsInfix (remove_xct g n).xcts g.xcts ∧
      (remove_xct g n).xcts.length ≤ g.xcts.length ∧
      (remove_xct g n).users = g.users) ∧
    (remove_xct ⟨"g", [], [⟨"B", 1⟩, ⟨"A", 2⟩, ⟨"C", 3⟩, ⟨"A", 4⟩]⟩ "A"
        = ⟨"g", [], [⟨"C", 3⟩, ⟨"A", 4⟩]⟩ ∧
     remove_xct ⟨"g", [], [⟨"B", 1⟩, ⟨"C", 3⟩, ⟨"A", 4⟩]⟩ "A"
        = ⟨"g", [], [⟨"B", 1⟩, ⟨"C", 3⟩]⟩ ∧
     remove_xct ⟨"g", [], [⟨"A", 4⟩]⟩ "A" = ⟨"g", [], [⟨"A", 4⟩]⟩) := by
  refine ⟨?_, ?_, ?_, by decide⟩
  · intro g n h
    rw [remove_xct_of_none g n h]
  · intro g n pre x post h1 h2 h3
    have hr := remove_xct_of_split g n pre x post h1 h2 h3
    by_cases hp : post ≠ []
    · rw [hr, if_pos hp, if_pos hp, h1, List.drop_append_eq_append_drop]
      simp
    · rw [hr, if_neg hp, if_neg hp]
      have hp' : post = [] := by simpa using hp
      subst hp'
      by_cases hpre : pre = []
      · simp [hpre]
      · rw [h1]
        simp [hpre]
  · intro g n
    have hin : List.IsInfix (remove_xct g n).xcts g.xcts :=
      remove_xct_loop_infix n g.xcts g.xcts 0 (List.suffix_refl _)
    exact ⟨hin, hin.length_le, rfl⟩

/-- Witness for C20: the first transaction of A is second of four. -/
theorem remove_xct_exact_witness :
    (remove_xct ⟨"g", [], [⟨"B", 1⟩, ⟨"A", 2⟩, ⟨"C", 3⟩, ⟨"A", 4⟩]⟩ "A").xcts
      = if ([⟨"C", 3⟩, ⟨"A", 4⟩] : List Xct) ≠ [] then
          ([⟨"B", 1⟩, ⟨"A", 2⟩, ⟨"C", 3⟩, ⟨"A", 4⟩] : List Xct).drop
            (([⟨"B", 1⟩] : List Xct).length + 1)
        else if ([⟨"B", 1⟩] : List Xct) ≠ [] then
          ([⟨"B", 1⟩, ⟨"A", 2⟩, ⟨"C", 3⟩, ⟨"A", 4⟩] : List Xct).dropLast
        else [⟨"B", 1⟩, ⟨"A", 2⟩, ⟨"C", 3⟩, ⟨"A", 4⟩] :=
  remove_xct_exact.2.1 ⟨"g", [], [⟨"B", 1⟩, ⟨"A", 2⟩, ⟨"C", 3⟩, ⟨"A", 4⟩]⟩ "A"
    [⟨"B", 1⟩] ⟨"A", 2⟩ [⟨"C", 3⟩, ⟨"A", 4⟩] (by decide) (by decide) (by decide)

/-! ## The placement switch of `add_xct` and the order of the list -/

/-- Claim C18. On a user list in non-decreasing balance order without a
negative balance, a successful `add_user` leaves the list in non-decreasing
balance order. On the sorted list with the single balance -5 a successful
`add_user` yields a list that is not in non-decreasing order. -/
theorem add_user_sorted :
    (∀ (g : Group) (n stray : String), SortedByBalance g.users →
      (∀ u ∈ g.users, 0 ≤ u.balance) → (add_user g n stray).1 = 0 →
      SortedByBalance (add_user g n stray).2.users) ∧
    (SortedByBalance (⟨"g", [⟨"A", -5⟩], [⟨"A", -5⟩]⟩ : Group).users ∧
      add_user ⟨"g", [⟨"A", -5⟩], [⟨"A", -5⟩]⟩ "B" ""
        = (0, ⟨"g", [⟨"B", 0⟩, ⟨"A", -5⟩], [⟨"A", -5⟩]⟩) ∧
      ¬ SortedByBalance (add_user ⟨"g", [⟨"A", -5⟩], [⟨"A", -5⟩]⟩ "B" "").2.users) := by
  refine ⟨?_, by decide⟩
  intro g n stray hs hpos hadd
  cases hf : find_prev_user g n with
  | some r =>
    rw [add_user_of_some g n stray r hf] at hadd
    have hne : ¬ ((-1 : Int) = 0) := by decide
    exact absurd hadd hne
  | none =>
    rw [add_user_of_none g n stray hf]
    unfold SortedByBalance at hs ⊢
    exact List.pairwise_cons.2 ⟨fun v hv => hpos v hv, hs⟩

/-- Witness for C18: a user is added to a sorted list of two users. -/
theorem add_user_sorted_witness :
    SortedByBalance (add_user ⟨"g", [⟨"A", 0⟩, ⟨"B", 4⟩], [⟨"B", 4⟩]⟩ "C" "").2.users :=
  add_user_sorted.1 ⟨"g", [⟨"A", 0⟩, ⟨"B", 4⟩], [⟨"B", 4⟩]⟩ "C" "" (by decide) (by decide)
    (by decide)

/-- Claim C1. The claim fails on the code: after add_user A, add_user B,
add_user C and add_xct C 10 the user list is B (0), C (10), A (0), which is
not in non-decreasing balance order; so not every reachable user list is
sorted. -/
theorem registry_not_sorted :
    (run_calls (empty_group "g")
        [.addUser "A" "", .addUser "B" "", .addUser "C" "",
          .addXct "C" 10 false ""]).users
      = [⟨"B", 0⟩, ⟨"C", 10⟩, ⟨"A", 0⟩] ∧
    list_users (run_calls (empty_group "g")
        [.addUser "A" "", .addUser "B" "", .addUser "C" "", .addXct "C" 10 false ""])
      = [("B", 0), ("C", 10), ("A", 0)] ∧
    ¬ (∀ g : Group, Reachable g → SortedByBalance g.users) := by
  refine ⟨by decide, by decide, ?_⟩
  intro h
  have hs := h _ ⟨"g", [.addUser "A" "", .addUser "B" "", .addUser "C" "",
    .addXct "C" 10 false ""], rfl⟩
  revert hs
  decide

/-- Claim C2. The claim fails on the code: after add_user A, add_xct A 1 and
add_xct A 2, `remove_user` of A returns success and leaves the transaction
(A, 1) in the log; `recent_xct` prints it, and A added again finds it there. -/
theorem remove_user_leaves_transactions :
    run_calls (empty_group "g")
        [.addUser "A" "", .addXct "A" 1 false "", .addXct "A" 2 false ""]
      = ⟨"g", [⟨"A", 3⟩], [⟨"A", 2⟩, ⟨"A", 1⟩]⟩ ∧
    remove_user ⟨"g", [⟨"A", 3⟩], [⟨"A", 2⟩, ⟨"A", 1⟩]⟩ "A" = (0, ⟨"g", [], [⟨"A", 1⟩]⟩) ∧
    recent_xct ⟨"g", [], [⟨"A", 1⟩]⟩ 1 = some [("A", 1)] ∧
    add_user ⟨"g", [], [⟨"A", 1⟩]⟩ "A" "" = (0, ⟨"g", [⟨"A", 0⟩], [⟨"A", 1⟩]⟩) := by
  decide

/-- Claim C3. The claim fails on the code: with the log (B, 3), (A, 2), (B, 1),
newest first, `remove_xct` for A leaves only (B, 1): the transaction (B, 3) of
another user is dropped from the log. -/
theorem remove_xct_drops_other_transactions :
    run_calls (empty_group "g")
        [.addUser "A" "", .addUser "B" "", .addXct "B" 1 false "", .addXct "A" 2 false "",
          .addXct "B" 3 false ""]
      = ⟨"g", [⟨"A", 2⟩, ⟨"B", 4⟩], [⟨"B", 3⟩, ⟨"A", 2⟩, ⟨"B", 1⟩]⟩ ∧
    remove_xct ⟨"g", [⟨"A", 2⟩, ⟨"B", 4⟩], [⟨"B", 3⟩, ⟨"A", 2⟩, ⟨"B", 1⟩]⟩ "A"
      = ⟨"g", [⟨"A", 2⟩, ⟨"B", 4⟩], [⟨"B", 1⟩]⟩ ∧
    remove_user ⟨"g", [⟨"A", 2⟩, ⟨"B", 4⟩], [⟨"B", 3⟩, ⟨"A", 2⟩, ⟨"B", 1⟩]⟩ "A"
      = (0, ⟨"g", [⟨"B", 4⟩], [⟨"B", 1⟩]⟩) := by
  decide

/-- Claim C5. The claim fails on the code: after add_user A, add_user B,
add_xct A 3, add_xct A 1, add_xct B 5 and remove_user A, user B has balance 5
and the log holds only (A, 3), so the amounts of B in the log sum to 0. -/
theorem balance_differs_from_log :
    run_calls (empty_group "g")
        [.addUser "A" "", .addUser "B" "", .addXct "A" 3 false "", .addXct "A" 1 false "",
          .addXct "B" 5 false "", .removeUser "A"]
      = ⟨"g", [⟨"B", 5⟩], [⟨"A", 3⟩]⟩ ∧
    log_sum "B" [⟨"A", 3⟩] = 0 ∧
    ¬ (∀ g : Group, Reachable g → ∀ u ∈ g.users, u.balance = log_sum u.name g.xcts) := by
  refine ⟨by decide, by decide, ?_⟩
  intro h
  have hs := h _ ⟨"g", [.addUser "A" "", .addUser "B" "", .addXct "A" 3 false "",
    .addXct "A" 1 false "", .addXct "B" 5 false "", .removeUser "A"], rfl⟩ ⟨"B", 5⟩ (by decide)
  revert hs
  decide

/-- Claim C7. The claim fails on the code: after add_user C, add_user B,
add_user A, add_xct A 10 and add_xct B 5 the user list is B (5), A (10),
C (0); the minimum balance is 0, and `under_paid` prints B, whose balance 5 is
above it, next to C. -/
theorem under_paid_prints_above_minimum :
    run_calls (empty_group "g")
        [.addUser "C" "", .addUser "B" "", .addUser "A" "", .addXct "A" 10 false "",
          .addXct "B" 5 false ""]
      = ⟨"g", [⟨"B", 5⟩, ⟨"A", 10⟩, ⟨"C", 0⟩],
          [⟨"B", 5⟩, ⟨"A", 10⟩]⟩ ∧
    IsMinBalance 0 [⟨"B", 5⟩, ⟨"A", 10⟩, ⟨"C", 0⟩] ∧
    under_paid ⟨"g", [⟨"B", 5⟩, ⟨"A", 10⟩, ⟨"C", 0⟩], [⟨"B", 5⟩, ⟨"A", 10⟩]⟩
      = (0, [("B", 5), ("C", 0)]) := by
  refine ⟨by decide, ?_, by decide⟩
  unfold IsMinBalance
  decide

/-- Claim C4. The claim fails on the code: after add_user Y, add_user X and
add_user U the user list is U, X, Y. The calls add_xct U 10 and add_xct X 20
succeed and leave the list U (10), X (20), Y (0), and the second of them
leaves X in `firstUser`. The call add_xct X 1 succeeds, switches X and Y, finds
`userToAdjust == firstUser` and sets the head of the list to Y: the list is
then Y (0), X (21), and U is not in it any more. `user_balance` for U returns
failure, while 10 was posted to U. -/
theorem balance_lost_with_stale_firstUser :
    run_calls (empty_group "g") [.addUser "Y" "", .addUser "X" "", .addUser "U" ""]
      = ⟨"g", [⟨"U", 0⟩, ⟨"X", 0⟩, ⟨"Y", 0⟩], []⟩ ∧
    add_xct ⟨"g", [⟨"U", 0⟩, ⟨"X", 0⟩, ⟨"Y", 0⟩], []⟩ "U" 10 false ""
      = (0, ⟨"g", [⟨"X", 0⟩, ⟨"U", 10⟩, ⟨"Y", 0⟩], [⟨"U", 10⟩]⟩) ∧
    add_xct ⟨"g", [⟨"X", 0⟩, ⟨"U", 10⟩, ⟨"Y", 0⟩], [⟨"U", 10⟩]⟩ "X" 20 false ""
      = (0, ⟨"g", [⟨"U", 10⟩, ⟨"X", 20⟩, ⟨"Y", 0⟩], [⟨"X", 20⟩, ⟨"U", 10⟩]⟩) ∧
    add_xct ⟨"g", [⟨"U", 10⟩, ⟨"X", 20⟩, ⟨"Y", 0⟩], [⟨"X", 20⟩, ⟨"U", 10⟩]⟩ "X" 1 true ""
      = (0, ⟨"g", [⟨"Y", 0⟩, ⟨"X", 21⟩], [⟨"X", 1⟩, ⟨"X", 20⟩, ⟨"U", 10⟩]⟩) ∧
    user_balance ⟨"g", [⟨"Y", 0⟩, ⟨"X", 21⟩], [⟨"X", 1⟩, ⟨"X", 20⟩, ⟨"U", 10⟩]⟩ "U"
      = (-1, none) ∧
    posted_sum "U" [("U", 10), ("X", 20), ("X", 1)] = 10 := by
  decide

/-- Claim C8. The claim fails on the code: after add_user P, add_user Q,
add_user Carl, remove_user P and remove_user Q, the call add_xct Carl 5 stores
its name in a recycled chunk, where the byte `\x05` stands behind the four
bytes copied. The entry that `recent_xct` prints is not (Carl, 5). -/
theorem recent_xct_prints_stray_bytes :
    run_calls (empty_group "g")
        [.addUser "P" "", .addUser "Q" "", .addUser "Carl" "", .removeUser "P",
          .removeUser "Q", .addXct "Carl" 5 false "\x05"]
      = ⟨"g", [⟨"Carl", 5⟩], [⟨"Carl\x05", 5⟩]⟩ ∧
    recent_xct ⟨"g", [⟨"Carl", 5⟩], [⟨"Carl\x05", 5⟩]⟩ 1 = some [("Carl\x05", 5)] ∧
    recent_xct ⟨"g", [⟨"Carl", 5⟩], [⟨"Carl\x05", 5⟩]⟩ 1 ≠ some [("Carl", 5)] := by
  decide

/-- Claim C9. The claim fails on the code: after add_user X, add_user Y,
add_user Carl, add_xct Carl 1, remove_user X and remove_user Y, the call
add_xct Carl 2 stores its name in a recycled chunk, where the byte `\x05`
stands behind the four bytes copied. It returns success and puts the
transaction (Carl\x05, 2) in front of the log, not (Carl, 2). -/
theorem add_xct_logs_stray_bytes :
    run_calls (empty_group "g")
        [.addUser "X" "", .addUser "Y" "", .addUser "Carl" "", .addXct "Carl" 1 false "",
          .removeUser "X", .removeUser "Y"]
      = ⟨"g", [⟨"Carl", 1⟩], [⟨"Carl", 1⟩]⟩ ∧
    add_xct ⟨"g", [⟨"Carl", 1⟩], [⟨"Carl", 1⟩]⟩ "Carl" 2 false "\x05"
      = (0, ⟨"g", [⟨"Carl", 3⟩], [⟨"Carl\x05", 2⟩, ⟨"Carl", 1⟩]⟩) ∧
    (add_xct ⟨"g", [⟨"Carl", 1⟩], [⟨"Carl", 1⟩]⟩ "Carl" 2 false "\x05").2.xcts
      ≠ ⟨"Carl", 2⟩ :: [⟨"Carl", 1⟩] := by
  decide

/-- Claim C10. The claim fails on the code: add_group trip, with the name
stored in a recycled chunk where the byte `\x05` stands behind the four bytes
copied, appends a group of name trip\x05, not trip. `find_group` does not find
trip afterwards, and a second add_group trip returns success. -/
theorem add_group_stores_stray_bytes :
    add_group [⟨"home", [], []⟩] "trip" "\x05"
      = (0, [⟨"home", [], []⟩, ⟨"trip\x05", [], []⟩]) ∧
    (add_group [⟨"home", [], []⟩] "trip" "\x05").2
      ≠ [⟨"home", [], []⟩] ++ [⟨"trip", [], []⟩] ∧
    find_group [⟨"home", [], []⟩, ⟨"trip\x05", [], []⟩] "trip" = none ∧
    add_group [⟨"home", [], []⟩, ⟨"trip\x05", [], []⟩] "trip" ""
      = (0, [⟨"home", [], []⟩, ⟨"trip\x05", [], []⟩, ⟨"trip", [], []⟩]) := by
  decide

/-- Claim C11. The claim fails on the code: after add_user P, add_user Q,
add_user Bob, remove_user P and remove_user Q, the call add_user Carl stores
its name in a recycled chunk, where the byte `\x05` stands behind the four
bytes copied. It puts a user of name Carl\x05 in front of the list, not a user
of name Carl, and a second add_user Carl returns success. -/
theorem add_user_stores_stray_bytes :
    run_calls (empty_group "g")
        [.addUser "P" "", .addUser "Q" "", .addUser "Bob" "", .removeUser "P",
          .removeUser "Q"]
      = ⟨"g", [⟨"Bob", 0⟩], []⟩ ∧
    add_user ⟨"g", [⟨"Bob", 0⟩], []⟩ "Carl" "\x05"
      = (0, ⟨"g", [⟨"Carl\x05", 0⟩, ⟨"Bob", 0⟩], []⟩) ∧
    (add_user ⟨"g", [⟨"Bob", 0⟩], []⟩ "Carl" "\x05").2.users
      ≠ ⟨"Carl", 0⟩ :: [⟨"Bob", 0⟩] ∧
    add_user ⟨"g", [⟨"Carl\x05", 0⟩, ⟨"Bob", 0⟩], []⟩ "Carl" ""
      = (0, ⟨"g", [⟨"Carl", 0⟩, ⟨"Carl\x05", 0⟩, ⟨"Bob", 0⟩], []⟩) := by
  decide

/-- Claim C13. The claim fails on the code: after add_user R, add_user Q,
add_user P and add_xct P 3 the list is Q (0), P (3), R (0) and `firstUser`
holds P. The call add_xct P 4 switches P and R, finds
`userToAdjust == firstUser` and sets the head of the list to R: user Q is
dropped from the list. Also, when both calls store the name in a recycled
chunk with the byte `\x05` behind the four bytes copied, add_user Carl is
accepted twice and the list holds two users of the same stored name. -/
theorem add_xct_drops_a_user :
    run_calls (empty_group "g")
        [.addUser "R" "", .addUser "Q" "", .addUser "P" "", .addXct "P" 3 false ""]
      = ⟨"g", [⟨"Q", 0⟩, ⟨"P", 3⟩, ⟨"R", 0⟩], [⟨"P", 3⟩]⟩ ∧
    add_xct ⟨"g", [⟨"Q", 0⟩, ⟨"P", 3⟩, ⟨"R", 0⟩], [⟨"P", 3⟩]⟩ "P" 4 true ""
      = (0, ⟨"g", [⟨"R", 0⟩, ⟨"P", 7⟩], [⟨"P", 4⟩, ⟨"P", 3⟩]⟩) ∧
    ¬ ((add_xct ⟨"g", [⟨"Q", 0⟩, ⟨"P", 3⟩, ⟨"R", 0⟩], [⟨"P", 3⟩]⟩ "P" 4 true "").2.users.map
        User.name).Perm ["Q", "P", "R"] ∧
    run_calls (empty_group "g")
        [.addUser "P" "", .addUser "Q" "", .addUser "S" "", .addUser "T" "",
          .removeUser "P", .removeUser "Q", .addUser "Carl" "\x05",
          .removeUser "S", .removeUser "T", .addUser "Carl" "\x05"]
      = ⟨"g", [⟨"Carl\x05", 0⟩, ⟨"Carl\x05", 0⟩], []⟩ ∧
    ¬ (∀ g : Group, Reachable g → (g.users.map User.name).Nodup) := by
  refine ⟨by decide, by decide, by decide, by decide, ?_⟩
  intro h
  have hs := h _ ⟨"g", [.addUser "P" "", .addUser "Q" "", .addUser "S" "", .addUser "T" "",
    .removeUser "P", .removeUser "Q", .addUser "Carl" "\x05", .removeUser "S",
    .removeUser "T", .addUser "Carl" "\x05"], rfl⟩
  revert hs
  decide

/-- Claim C16. The claim fails on the code: after add_user C, add_user B,
add_user A and add_xct A 10 the list is B (0), A (10), C (0) and `firstUser`
holds A. The call add_xct A 5 switches A and C, finds
`userToAdjust == firstUser` and sets the head of the list to C: the new list
is C (0), A (15), not B (0), C (0), A (15). -/
theorem add_xct_switch_drops_the_front :
    run_calls (empty_group "g")
        [.addUser "C" "", .addUser "B" "", .addUser "A" "", .addXct "A" 10 false ""]
      = ⟨"g", [⟨"B", 0⟩, ⟨"A", 10⟩, ⟨"C", 0⟩], [⟨"A", 10⟩]⟩ ∧
    add_xct ⟨"g", [⟨"B", 0⟩, ⟨"A", 10⟩, ⟨"C", 0⟩], [⟨"A", 10⟩]⟩ "A" 5 true ""
      = (0, ⟨"g", [⟨"C", 0⟩, ⟨"A", 15⟩], [⟨"A", 5⟩, ⟨"A", 10⟩]⟩) ∧
    (add_xct ⟨"g", [⟨"B", 0⟩, ⟨"A", 10⟩, ⟨"C", 0⟩], [⟨"A", 10⟩]⟩ "A" 5 true "").2.users
      ≠ [⟨"B", 0⟩] ++ ⟨"C", 0⟩ :: ⟨"A", 15⟩ :: [] := by
  decide

end Buxfer
